import Mathlib

/-! A prefix tree (`trie.h`)

A shallow embedding of the `Node` / `Trie` pair of `trie.h` and of its three
public operations `store`, `words_starting_with` and `longest_prefix`, with
the private helpers `navigate_to` and `list_all_children`.

* A `std::string` is a list of characters; a `char` holding the byte `b` is
  the `Char` of code `b`. The keys of the maps are ordered by `std::less<char>`,
  which compares the values of the `char`s: `char_value`, plain `char` being
  signed, so the bytes from 0x80 on come before the others.
* `map<char,Node*>` is an association list kept in strictly ascending key
  order, as `std::map` keeps it. Every `Node*` stored in a map comes from
  `new Node()` and each node has exactly one owner, so a child pointer is
  modelled by the subtree it points to.
* A `Node*` that may be `nullptr` (the result of `navigate_to`, the argument
  of `list_all_children`) is an `Option Node`.
-/

/-- The argument and result type `std::string`. -/
abbrev Str := List Char

mutual
/-- The `struct Node`: its `next` map and its `end` flag. -/
inductive Node where
  | mk (next : NodeMap) (isEnd : Bool)
/-- The `map<char,Node*>` of a node: its entries in iteration order. -/
inductive NodeMap where
  | nil
  | cons (key : Char) (child : Node) (rest : NodeMap)
end

/-- The member `next` of a node. -/
def Node.next : Node → NodeMap
  | Node.mk nx _ => nx

/-- The member `end` of a node (`end` is a keyword of Lean). -/
def Node.isEnd : Node → Bool
  | Node.mk _ e => e

/-- The result of `new Node()`: an empty map and `end = false`. -/
def Node.fresh : Node := Node.mk NodeMap.nil false

/-- The lookup `next.find(chr)`: `none` stands for `next.end()`. -/
def NodeMap.find : NodeMap → Char → Option Node
  | NodeMap.nil, _ => none
  | NodeMap.cons k v rest, c => if c = k then some v else rest.find c

/-- The value of a `char` that holds the byte `c`, plain `char` being a signed
8-bit type (as it is for gcc and clang on x86-64): the bytes from 0x80 on have
the negative values -128 to -1. `std::less<char>`, the key order of
`map<char,Node*>`, is `<` on these values. -/
def char_value (c : Char) : Int :=
  if 128 ≤ c.toNat ∧ c.toNat < 256 then (c.toNat : Int) - 256 else (c.toNat : Int)

/-- The write `next[chr] = node` of `std::map`: the entry of `chr` is replaced
when the key is present and is inserted at its place in key order otherwise. -/
def NodeMap.put : NodeMap → Char → Node → NodeMap
  | NodeMap.nil, c, n => NodeMap.cons c n NodeMap.nil
  | NodeMap.cons k v rest, c, n =>
    if char_value c < char_value k then NodeMap.cons c n (NodeMap.cons k v rest)
    else if c = k then NodeMap.cons k n rest
    else NodeMap.cons k v (rest.put c n)

/-- All keys of the map are above `lo`. -/
def NodeMap.above (lo : Char) : NodeMap → Bool
  | NodeMap.nil => true
  | NodeMap.cons k _ rest => decide (char_value lo < char_value k) && rest.above lo

mutual
/-- The representation invariant of `std::map` at every node below: keys are
strictly ascending, hence unique. -/
def Node.wf : Node → Bool
  | Node.mk nx _ => nx.wf
/-- The entries of a map are in strictly ascending key order and every child
satisfies the invariant. -/
def NodeMap.wf : NodeMap → Bool
  | NodeMap.nil => true
  | NodeMap.cons k v rest => v.wf && rest.above k && rest.wf
end

/-- The loop of `Trie::store` from `node` on: every character takes the
existing child or a `new Node()` linked under it, the rest of the string is
stored below that child, and the node reached at the end gets `end = true`. -/
def Node.store : Node → Str → Node
  | Node.mk nx _, [] => Node.mk nx true
  | Node.mk nx e, chr :: rest =>
    let child := (nx.find chr).getD Node.fresh
    Node.mk (nx.put chr (child.store rest)) e

/-- The loop of `Trie::navigate_to` from `node` on: `none` is `nullptr`. -/
def Node.navigate_to : Node → Str → Option Node
  | node, [] => some node
  | Node.mk nx _, chr :: rest =>
    match nx.find chr with
    | none => none
    | some child => child.navigate_to rest

mutual
/-- The body of `Trie::list_all_children` for a node that is not `nullptr`. -/
def Node.list_all_children : Node → List Str
  | Node.mk nx e => (if e then [[]] else []) ++ nx.list_all_children
/-- The loop of `Trie::list_all_children` over the entries `kv` of `next`. -/
def NodeMap.list_all_children : NodeMap → List Str
  | NodeMap.nil => []
  | NodeMap.cons k v rest =>
    (v.list_all_children).map (fun child_str => k :: child_str) ++ rest.list_all_children
end

/-- The helper `Trie::list_all_children`, with its `nullptr` test. -/
def list_all_children : Option Node → List Str
  | none => []
  | some node => node.list_all_children

/-- The loop of `Trie::longest_prefix` from `node` on, `out` being the
characters matched so far. -/
def Node.longest_prefix_loop : Node → Str → Str → Str
  | _, out, [] => out
  | Node.mk nx _, out, chr :: rest =>
    match nx.find chr with
    | some child => child.longest_prefix_loop (out ++ [chr]) rest
    | none => out

/-- The `class Trie`: its only member is the root node. -/
structure Trie where
  root : Node

/-- The constructor `Trie()`. -/
def Trie.new : Trie := ⟨Node.fresh⟩

/-- The method `Trie::store`. -/
def Trie.store (t : Trie) (str : Str) : Trie := ⟨t.root.store str⟩

/-- The helper `Trie::navigate_to`. -/
def Trie.navigate_to (t : Trie) (str : Str) : Option Node := t.root.navigate_to str

/-- The method `Trie::words_starting_with`. -/
def Trie.words_starting_with (t : Trie) (pre : Str) : List Str :=
  (list_all_children (t.navigate_to pre)).map (fun cs => pre ++ cs)

/-- The method `Trie::longest_prefix`. -/
def Trie.longest_prefix (t : Trie) (st : Str) : Str :=
  t.root.longest_prefix_loop [] st

/-- The invariant of `std::map` holds at every node of the trie. -/
def Trie.wf (t : Trie) : Bool := t.root.wf

/-- The trie after `store` was called on a `Trie()` with each string of `strs`
in turn. -/
def Trie.build (strs : List Str) : Trie := strs.foldl Trie.store Trie.new

/-- A string is accepted below `node` when following it leads to a node with
`end = true`. -/
def Node.accepts (node : Node) (w : Str) : Bool :=
  match node.navigate_to w with
  | some m => m.isEnd
  | none => false

/-! ### The queries as state transformers

`longest_prefix` and `words_starting_with` are not `const` members, and
`next[chr]` is `std::map::operator[]`, which inserts an entry when the key is
absent. The definitions below run the same code while threading the tree
through every step, so that what a query leaves behind can be compared with
what it started from. -/

/-- The read `next[chr]` (`std::map::operator[]`): the map afterwards and the
child found under `chr`. With `chr` absent, `operator[]` inserts an entry that
holds `nullptr`; no `NodeMap` has such an entry, and the answer is `none`. -/
def NodeMap.subscript (m : NodeMap) (chr : Char) : Option (NodeMap × Node) :=
  match m.find chr with
  | some child => some (m, child)
  | none => none

/-- The loop of `Trie::longest_prefix` from `node` on, returning `out` and the
tree below `node` as the loop leaves it; `none` when a `next[chr]` inserted an
entry. The child reached through `next[chr]` stays linked under `chr`. -/
def Node.longest_prefix_run : Node → Str → Str → Option (Str × Node)
  | node, out, [] => some (out, node)
  | Node.mk nx e, out, chr :: rest =>
    match nx.find chr with
    | some _ =>
      match nx.subscript chr with
      | some (nx1, child) =>
        match child.longest_prefix_run (out ++ [chr]) rest with
        | some (r, child1) => some (r, Node.mk (nx1.put chr child1) e)
        | none => none
      | none => none
    | none => some (out, Node.mk nx e)

/-- The loop of `Trie::navigate_to` from `node` on, returning the pointer
(`none` is `nullptr`) and the tree below `node` as the loop leaves it; the
outer `none` when a `next[chr]` inserted an entry. -/
def Node.navigate_to_run : Node → Str → Option (Option Node × Node)
  | node, [] => some (some node, node)
  | Node.mk nx e, chr :: rest =>
    match nx.find chr with
    | none => some (none, Node.mk nx e)
    | some _ =>
      match nx.subscript chr with
      | some (nx1, child) =>
        match child.navigate_to_run rest with
        | some (r, child1) => some (r, Node.mk (nx1.put chr child1) e)
        | none => none
      | none => none

mutual
/-- The body of `Trie::list_all_children` for a node that is not `nullptr`,
returning the list and the node as the call leaves it. -/
def Node.list_all_children_run : Node → List Str × Node
  | Node.mk nx e =>
    ((if e then [[]] else []) ++ (nx.list_all_children_run).1,
      Node.mk (nx.list_all_children_run).2 e)
/-- The loop of `Trie::list_all_children` over the entries of `next`,
returning the strings and the entries as the loop leaves them. -/
def NodeMap.list_all_children_run : NodeMap → List Str × NodeMap
  | NodeMap.nil => ([], NodeMap.nil)
  | NodeMap.cons k v rest =>
    ((v.list_all_children_run).1.map (fun child_str => k :: child_str)
        ++ (rest.list_all_children_run).1,
      NodeMap.cons k (v.list_all_children_run).2 (rest.list_all_children_run).2)
end

/-- The tree below `node` once the node at the end of the path `str` has the
value `sub`: how a change made through a pointer returned by `navigate_to`
shows in the tree. -/
def Node.assign_at : Node → Str → Node → Node
  | _, [], sub => sub
  | Node.mk nx e, chr :: rest, sub =>
    match nx.find chr with
    | some child => Node.mk (nx.put chr (child.assign_at rest sub)) e
    | none => Node.mk nx e

/-- The method `Trie::longest_prefix` with the trie it leaves behind. -/
def Trie.longest_prefix_run (t : Trie) (st : Str) : Option (Str × Trie) :=
  match t.root.longest_prefix_run [] st with
  | some (out, root1) => some (out, ⟨root1⟩)
  | none => none

/-- The method `Trie::words_starting_with` with the trie it leaves behind. -/
def Trie.words_starting_with_run (t : Trie) (pre : Str) : Option (List Str × Trie) :=
  match t.root.navigate_to_run pre with
  | some (some node, root1) =>
    some (((node.list_all_children_run).1).map (fun cs => pre ++ cs),
      ⟨root1.assign_at pre (node.list_all_children_run).2⟩)
  | some (none, root1) => some ([], ⟨root1⟩)
  | none => none

/-! ### Measures used by the statements -/

mutual
/-- The number of `Node` objects in the tree below `node`, `node` included:
one for every `new Node()` that built it. -/
def Node.count : Node → Nat
  | Node.mk nx _ => 1 + nx.count
/-- The number of `Node` objects below the entries of a map. -/
def NodeMap.count : NodeMap → Nat
  | NodeMap.nil => 0
  | NodeMap.cons _ v rest => v.count + rest.count
end

/-- The longest common prefix of two strings: the characters on which they
agree from the start on. -/
def lcp : Str → Str → Str
  | a :: s, b :: t => if a = b then a :: lcp s t else []
  | _, _ => []

/-! ## The key order -/

theorem char_value_inj {a b : Char} (h : char_value a = char_value b) : a = b := by
  have hn : a.toNat = b.toNat := by
    unfold char_value at h
    split_ifs at h <;> omega
  rw [← Char.ofNat_toNat a, ← Char.ofNat_toNat b, hn]

theorem char_trichotomy (a b : Char) :
    char_value a < char_value b ∨ a = b ∨ char_value b < char_value a := by
  rcases lt_trichotomy (char_value a) (char_value b) with h | h | h
  · exact Or.inl h
  · exact Or.inr (Or.inl (char_value_inj h))
  · exact Or.inr (Or.inr h)

/-! ## The map operations -/

theorem NodeMap.find_put (m : NodeMap) (c d : Char) (n : Node) :
    (m.put c n).find d = if d = c then some n else m.find d := by
  match m with
  | NodeMap.nil => simp [NodeMap.put, NodeMap.find]
  | NodeMap.cons k v rest =>
    have ih := NodeMap.find_put rest c d n
    by_cases h1 : char_value c < char_value k
    · simp [NodeMap.put, h1, NodeMap.find]
    · by_cases h2 : c = k
      · subst h2
        by_cases h3 : d = c <;> simp [NodeMap.put, h1, NodeMap.find, h3]
      · by_cases h3 : d = k
        · have h4 : ¬ d = c := fun h => h2 (h ▸ h3)
          have h5 : ¬ k = c := fun h => h2 h.symm
          simp [NodeMap.put, h1, h2, NodeMap.find, h3, h5]
        · simp [NodeMap.put, h1, h2, NodeMap.find, h3, ih]

theorem NodeMap.put_put (m : NodeMap) (c : Char) (n n2 : Node) :
    (m.put c n).put c n2 = m.put c n2 := by
  match m with
  | NodeMap.nil => simp [NodeMap.put]
  | NodeMap.cons k v rest =>
    have ih := NodeMap.put_put rest c n n2
    by_cases h1 : char_value c < char_value k
    · simp [NodeMap.put, h1]
    · by_cases h2 : c = k
      · subst h2
        simp [NodeMap.put, h1]
      · simp [NodeMap.put, h1, h2, ih]

theorem NodeMap.find_of_above (m : NodeMap) (lo c : Char) (h : m.above lo = true)
    (hc : ¬ char_value lo < char_value c) : m.find c = none := by
  match m with
  | NodeMap.nil => rfl
  | NodeMap.cons k v rest =>
    simp only [NodeMap.above, Bool.and_eq_true, decide_eq_true_eq] at h
    have ih := NodeMap.find_of_above rest lo c h.2 hc
    have : ¬ c = k := fun e => hc (e ▸ h.1)
    simp [NodeMap.find, this, ih]

theorem NodeMap.above_trans (m : NodeMap) (lo k : Char) (h : m.above k = true)
    (hk : char_value lo < char_value k) : m.above lo = true := by
  match m with
  | NodeMap.nil => rfl
  | NodeMap.cons k2 v rest =>
    simp only [NodeMap.above, Bool.and_eq_true, decide_eq_true_eq] at h ⊢
    exact ⟨lt_trans hk h.1, NodeMap.above_trans rest lo k h.2 hk⟩

theorem NodeMap.above_put (m : NodeMap) (lo c : Char) (n : Node) (h : m.above lo = true)
    (hc : char_value lo < char_value c) : (m.put c n).above lo = true := by
  match m with
  | NodeMap.nil => simp [NodeMap.put, NodeMap.above, hc]
  | NodeMap.cons k v rest =>
    simp only [NodeMap.above, Bool.and_eq_true, decide_eq_true_eq] at h
    have ih := NodeMap.above_put rest lo c n h.2 hc
    by_cases h1 : char_value c < char_value k
    · simp [NodeMap.put, h1, NodeMap.above, hc, h.1, h.2]
    · by_cases h2 : c = k
      · simp [NodeMap.put, h1, h2, NodeMap.above, h.1, h.2]
      · simp [NodeMap.put, h1, h2, NodeMap.above, h.1, ih]

theorem NodeMap.wf_put (m : NodeMap) (c : Char) (n : Node) (h : m.wf = true)
    (hn : n.wf = true) : (m.put c n).wf = true := by
  match m with
  | NodeMap.nil => simp [NodeMap.put, NodeMap.wf, NodeMap.above, hn]
  | NodeMap.cons k v rest =>
    have h0 := h
    simp only [NodeMap.wf, Bool.and_eq_true] at h
    have ih := NodeMap.wf_put rest c n h.2 hn
    by_cases h1 : char_value c < char_value k
    · simp [NodeMap.put, h1, NodeMap.wf, NodeMap.above, hn, h.1.1, h.1.2, h.2,
        NodeMap.above_trans rest c k h.1.2 h1]
    · by_cases h2 : c = k
      · simp [NodeMap.put, h1, h2, NodeMap.wf, hn, h.1.2, h.2]
      · have h3 : char_value k < char_value c :=
          lt_of_le_of_ne (not_lt.mp h1) (fun e => h2 (char_value_inj e).symm)
        simp [NodeMap.put, h1, h2, NodeMap.wf, h.1.1, ih,
          NodeMap.above_put rest k c n h.1.2 h3]

theorem NodeMap.wf_find (m : NodeMap) (c : Char) (v : Node) (h : m.wf = true)
    (hf : m.find c = some v) : v.wf = true := by
  match m with
  | NodeMap.nil => simp [NodeMap.find] at hf
  | NodeMap.cons k v2 rest =>
    simp only [NodeMap.wf, Bool.and_eq_true] at h
    by_cases hc : c = k
    · simp [NodeMap.find, hc] at hf
      exact hf ▸ h.1.1
    · simp [NodeMap.find, hc] at hf
      exact NodeMap.wf_find rest c v h.2 hf

theorem NodeMap.put_self (m : NodeMap) (c : Char) (v : Node) (h : m.wf = true)
    (hf : m.find c = some v) : m.put c v = m := by
  match m with
  | NodeMap.nil => simp [NodeMap.find] at hf
  | NodeMap.cons k v2 rest =>
    simp only [NodeMap.wf, Bool.and_eq_true] at h
    by_cases hc : c = k
    · subst hc
      simp [NodeMap.find] at hf
      simp [NodeMap.put, hf]
    · simp [NodeMap.find, hc] at hf
      have h1 : ¬ char_value c < char_value k := by
        intro hlt
        have := NodeMap.find_of_above rest k c h.1.2 (lt_asymm hlt)
        simp [this] at hf
      simp [NodeMap.put, h1, hc, NodeMap.put_self rest c v h.2 hf]

/-! ## Enumeration against navigation -/

theorem NodeMap.nil_not_mem_list (m : NodeMap) : [] ∉ m.list_all_children := by
  match m with
  | NodeMap.nil => simp [NodeMap.list_all_children]
  | NodeMap.cons k v rest =>
    have ih := NodeMap.nil_not_mem_list rest
    simp [NodeMap.list_all_children, ih]

theorem NodeMap.cons_mem_list (m : NodeMap) (c : Char) (w : Str) (h : m.wf = true) :
    c :: w ∈ m.list_all_children ↔ ∃ v, m.find c = some v ∧ w ∈ v.list_all_children := by
  match m with
  | NodeMap.nil => simp [NodeMap.list_all_children, NodeMap.find]
  | NodeMap.cons k v rest =>
    simp only [NodeMap.wf, Bool.and_eq_true] at h
    have ih := NodeMap.cons_mem_list rest c w h.2
    by_cases hc : c = k
    · subst hc
      have hnone := NodeMap.find_of_above rest c c h.1.2 (lt_irrefl (char_value c))
      have hrest : c :: w ∉ rest.list_all_children := by
        rw [ih, hnone]
        simp
      simp [NodeMap.list_all_children, NodeMap.find, hrest]
    · have hk : ¬ k = c := fun e => hc e.symm
      simp [NodeMap.list_all_children, NodeMap.find, hc, hk, ih]

theorem Node.wf_fresh : Node.fresh.wf = true := by
  simp [Node.fresh, Node.wf, NodeMap.wf]

theorem Node.wf_store (s : Str) : ∀ n : Node, n.wf = true → (n.store s).wf = true := by
  induction s with
  | nil =>
    intro n h
    cases n with
    | mk nx e => simpa [Node.store, Node.wf] using h
  | cons c s ih =>
    intro n h
    cases n with
    | mk nx e =>
      simp only [Node.wf] at h
      simp only [Node.store, Node.wf]
      apply NodeMap.wf_put nx c _ h
      apply ih
      cases hf : nx.find c with
      | none => simpa using Node.wf_fresh
      | some v => simpa using NodeMap.wf_find nx c v h hf

theorem Node.wf_navigate (p : Str) :
    ∀ n m : Node, n.wf = true → n.navigate_to p = some m → m.wf = true := by
  induction p with
  | nil =>
    intro n m h hn
    cases n with
    | mk nx e =>
      simp [Node.navigate_to] at hn
      exact hn ▸ h
  | cons c p ih =>
    intro n m h hn
    cases n with
    | mk nx e =>
      simp only [Node.wf] at h
      simp only [Node.navigate_to] at hn
      cases hf : nx.find c with
      | none => simp [hf] at hn
      | some v =>
        simp [hf] at hn
        exact ih v m (NodeMap.wf_find nx c v h hf) hn

theorem Node.navigate_append (p q : Str) :
    ∀ n : Node, n.navigate_to (p ++ q) = (n.navigate_to p).bind (fun m => m.navigate_to q) := by
  induction p with
  | nil => intro n; cases n; simp [Node.navigate_to]
  | cons c p ih =>
    intro n
    cases n with
    | mk nx e =>
      simp only [List.cons_append, Node.navigate_to]
      cases hf : nx.find c with
      | none => simp
      | some v => simpa using ih v

theorem Node.accepts_nil (n : Node) : n.accepts [] = n.isEnd := by
  cases n; simp [Node.accepts, Node.navigate_to]

theorem Node.accepts_cons (nx : NodeMap) (e : Bool) (c : Char) (w : Str) :
    (Node.mk nx e).accepts (c :: w) =
      match nx.find c with
      | some v => v.accepts w
      | none => false := by
  simp only [Node.accepts, Node.navigate_to]
  cases nx.find c <;> rfl

theorem Node.accepts_fresh (w : Str) : Node.fresh.accepts w = false := by
  cases w with
  | nil => rfl
  | cons c w => simp [Node.fresh, Node.accepts_cons, NodeMap.find]

theorem Node.mem_list_iff (w : Str) :
    ∀ n : Node, n.wf = true → (w ∈ n.list_all_children ↔ n.accepts w = true) := by
  induction w with
  | nil =>
    intro n _
    cases n with
    | mk nx e =>
      have := NodeMap.nil_not_mem_list nx
      cases e <;> simp [Node.list_all_children, Node.accepts_nil, Node.isEnd, this]
  | cons c w ih =>
    intro n h
    cases n with
    | mk nx e =>
      simp only [Node.wf] at h
      have hm := NodeMap.cons_mem_list nx c w h
      rw [Node.accepts_cons]
      have : c :: w ∈ (Node.mk nx e).list_all_children ↔ c :: w ∈ nx.list_all_children := by
        cases e <;> simp [Node.list_all_children]
      rw [this, hm]
      cases hf : nx.find c with
      | none => simp
      | some v => simpa using ih v (NodeMap.wf_find nx c v h hf)

theorem Node.accepts_store (s : Str) :
    ∀ (n : Node) (w : Str), (n.store s).accepts w = true ↔ w = s ∨ n.accepts w = true := by
  induction s with
  | nil =>
    intro n w
    cases n with
    | mk nx e =>
      cases w with
      | nil => simp [Node.store, Node.accepts_nil, Node.isEnd]
      | cons d w => simp [Node.store, Node.accepts_cons]
  | cons c s ih =>
    intro n w
    cases n with
    | mk nx e =>
      cases w with
      | nil => simp [Node.store, Node.accepts_nil, Node.isEnd]
      | cons d w =>
        simp only [Node.store, Node.accepts_cons, NodeMap.find_put]
        by_cases hd : d = c
        · subst hd
          simp only [if_true, ih]
          cases hf : nx.find d with
          | none => simp [Node.accepts_fresh]
          | some v => simp
        · simp [hd]

theorem Node.accepts_append (p q : Str) (n : Node) :
    n.accepts (p ++ q) =
      match n.navigate_to p with
      | some m => m.accepts q
      | none => false := by
  simp only [Node.accepts, Node.navigate_append]
  cases n.navigate_to p <;> rfl

theorem Node.navigate_store_self (s : Str) :
    ∀ n : Node, ∃ nx, (n.store s).navigate_to s = some (Node.mk nx true) := by
  induction s with
  | nil =>
    intro n
    cases n with
    | mk nx e => exact ⟨nx, by simp [Node.store, Node.navigate_to]⟩
  | cons c s ih =>
    intro n
    cases n with
    | mk nx e =>
      obtain ⟨nx2, h2⟩ := ih ((nx.find c).getD Node.fresh)
      exact ⟨nx2, by simp [Node.store, Node.navigate_to, NodeMap.find_put, h2]⟩

/-! ## The trie operations -/

theorem Trie.mem_words_iff (t : Trie) (h : t.wf = true) (p w : Str) :
    w ∈ t.words_starting_with p ↔ p <+: w ∧ t.root.accepts w = true := by
  simp only [Trie.words_starting_with, Trie.navigate_to, List.mem_map]
  constructor
  · rintro ⟨cs, hcs, rfl⟩
    refine ⟨List.prefix_append p cs, ?_⟩
    rw [Node.accepts_append]
    cases hn : t.root.navigate_to p with
    | none => simp [hn, list_all_children] at hcs
    | some m =>
      simp only [hn, list_all_children] at hcs
      exact (Node.mem_list_iff cs m (Node.wf_navigate p t.root m h hn)).mp hcs
  · rintro ⟨⟨cs, rfl⟩, hacc⟩
    refine ⟨cs, ?_, rfl⟩
    rw [Node.accepts_append] at hacc
    cases hn : t.root.navigate_to p with
    | none => simp [hn] at hacc
    | some m =>
      simp only [hn] at hacc
      simpa [list_all_children] using
        (Node.mem_list_iff cs m (Node.wf_navigate p t.root m h hn)).mpr hacc

theorem Trie.wf_after_store (t : Trie) (s : Str) (h : t.wf = true) : (t.store s).wf = true :=
  Node.wf_store s t.root h

theorem Trie.wf_foldl (strs : List Str) :
    ∀ t : Trie, t.wf = true → (strs.foldl Trie.store t).wf = true := by
  induction strs with
  | nil => intro t h; exact h
  | cons s strs ih => intro t h; exact ih (t.store s) (Trie.wf_after_store t s h)

theorem Trie.wf_build (strs : List Str) : (Trie.build strs).wf = true :=
  Trie.wf_foldl strs Trie.new Node.wf_fresh

theorem Trie.accepts_foldl (strs : List Str) (w : Str) :
    ∀ t : Trie, (strs.foldl Trie.store t).root.accepts w = true ↔
      w ∈ strs ∨ t.root.accepts w = true := by
  induction strs with
  | nil => intro t; simp
  | cons s strs ih =>
    intro t
    simp only [List.foldl_cons, ih, Trie.store, Node.accepts_store, List.mem_cons]
    tauto

theorem Trie.accepts_build (strs : List Str) (w : Str) :
    (Trie.build strs).root.accepts w = true ↔ w ∈ strs := by
  simp [Trie.build, Trie.accepts_foldl, Trie.new, Node.accepts_fresh]

/-! ## The claims -/

/-- C1: after any sequence of `store` calls on a fresh trie, a string occurs in
`words_starting_with p` exactly when it was stored and `p` is one of its
prefixes; after `store("car")` and `store("cards")` the words starting with
`"car"` are `"car"` and `"cards"`. -/
theorem words_starting_with_stored (strs : List Str) (p w : Str) :
    (w ∈ (Trie.build strs).words_starting_with p ↔ w ∈ strs ∧ p <+: w) ∧
    (Trie.build ["car".toList, "cards".toList]).words_starting_with "car".toList
      = ["car".toList, "cards".toList] := by
  refine ⟨?_, by decide⟩
  rw [Trie.mem_words_iff _ (Trie.wf_build strs), Trie.accepts_build]
  tauto

/-- C2: on a trie whose maps are well formed, `store s` adds `s` and nothing
else: for every `p`, the members of `words_starting_with p` afterwards are the
members before, together with `s` when `p` is a prefix of `s`. -/
theorem store_adds_exactly (t : Trie) (h : t.wf = true) (s p w : Str) :
    w ∈ (t.store s).words_starting_with p ↔
      w ∈ t.words_starting_with p ∨ (w = s ∧ p <+: s) := by
  rw [Trie.mem_words_iff _ (Trie.wf_after_store t s h), Trie.mem_words_iff _ h]
  simp only [Trie.store, Node.accepts_store]
  constructor
  · rintro ⟨hp, rfl | ha⟩
    · exact Or.inr ⟨rfl, hp⟩
    · exact Or.inl ⟨hp, ha⟩
  · rintro (⟨hp, ha⟩ | ⟨rfl, hp⟩)
    · exact ⟨hp, Or.inr ha⟩
    · exact ⟨hp, Or.inl rfl⟩

theorem store_adds_exactly_witness :
    (Trie.build ["car".toList]).wf = true ∧
    ("cards".toList ∈ ((Trie.build ["car".toList]).store "cards".toList).words_starting_with
        "car".toList ↔
      "cards".toList ∈ (Trie.build ["car".toList]).words_starting_with "car".toList ∨
        ("cards".toList = "cards".toList ∧ "car".toList <+: "cards".toList)) :=
  ⟨by decide, store_adds_exactly _ (by decide) _ _ _⟩

/-- C5: after `store s`, the result of `words_starting_with s` contains `s`,
whatever the trie was before. -/
theorem store_round_trip (t : Trie) (s : Str) :
    s ∈ (t.store s).words_starting_with s := by
  obtain ⟨nx, hn⟩ := Node.navigate_store_self s t.root
  simp only [Trie.words_starting_with, Trie.navigate_to, Trie.store, hn, list_all_children,
    List.mem_map]
  exact ⟨[], by simp [Node.list_all_children], by simp⟩

/-- C7: after any sequence of `store` calls on a fresh trie,
`words_starting_with ""` holds every stored string and nothing else. -/
theorem words_starting_with_empty (strs : List Str) (w : Str) :
    w ∈ (Trie.build strs).words_starting_with [] ↔ w ∈ strs := by
  rw [Trie.mem_words_iff _ (Trie.wf_build strs), Trie.accepts_build]
  simp

/-! ## The longest-prefix walk -/

theorem Node.longest_prefix_loop_acc (st : Str) :
    ∀ (n : Node) (out : Str),
      n.longest_prefix_loop out st = out ++ n.longest_prefix_loop [] st := by
  induction st with
  | nil => intro n out; cases n; simp [Node.longest_prefix_loop]
  | cons c st ih =>
    intro n out
    cases n with
    | mk nx e =>
      simp only [Node.longest_prefix_loop]
      cases nx.find c with
      | none => simp
      | some v =>
        simp only [List.nil_append]
        rw [ih v (out ++ [c]), ih v [c]]
        simp

theorem Node.longest_prefix_loop_nil (n : Node) : n.longest_prefix_loop [] [] = [] := by
  cases n; rfl

theorem Node.longest_prefix_loop_cons (nx : NodeMap) (e : Bool) (c : Char) (st : Str) :
    (Node.mk nx e).longest_prefix_loop [] (c :: st) =
      match nx.find c with
      | some v => c :: v.longest_prefix_loop [] st
      | none => [] := by
  simp only [Node.longest_prefix_loop]
  cases nx.find c with
  | none => rfl
  | some v => simp [Node.longest_prefix_loop_acc st v [c]]

theorem Node.longest_prefix_loop_prefix (st : Str) :
    ∀ n : Node, n.longest_prefix_loop [] st <+: st := by
  induction st with
  | nil => intro n; simp [Node.longest_prefix_loop_nil]
  | cons c st ih =>
    intro n
    cases n with
    | mk nx e =>
      rw [Node.longest_prefix_loop_cons]
      cases nx.find c with
      | none => simp
      | some v => simpa [List.cons_prefix_cons] using ih v

theorem Node.longest_prefix_loop_path (st : Str) :
    ∀ n : Node, ∃ m, n.navigate_to (n.longest_prefix_loop [] st) = some m ∧
      (n.longest_prefix_loop [] st = st ∨
        ∃ c rest, st = n.longest_prefix_loop [] st ++ c :: rest ∧ m.next.find c = none) := by
  induction st with
  | nil =>
    intro n
    exact ⟨n, by cases n; simp [Node.longest_prefix_loop_nil, Node.navigate_to],
      Or.inl (Node.longest_prefix_loop_nil n)⟩
  | cons c st ih =>
    intro n
    cases n with
    | mk nx e =>
      rw [Node.longest_prefix_loop_cons]
      cases hf : nx.find c with
      | none =>
        exact ⟨Node.mk nx e, by simp [Node.navigate_to], Or.inr ⟨c, st, by simp, hf⟩⟩
      | some v =>
        obtain ⟨m, hm, hlast⟩ := ih v
        refine ⟨m, by simp [Node.navigate_to, hf, hm], ?_⟩
        rcases hlast with heq | ⟨d, rest, hst, hd⟩
        · exact Or.inl (by simp [heq])
        · exact Or.inr ⟨d, rest, by simpa using hst, hd⟩

theorem Node.longest_prefix_loop_longest (st : Str) :
    ∀ (n : Node) (q : Str), q <+: st → (n.navigate_to q).isSome = true →
      q <+: n.longest_prefix_loop [] st := by
  induction st with
  | nil =>
    intro n q hq _
    simp at hq
    simp [hq]
  | cons c st ih =>
    intro n q hq hnav
    cases q with
    | nil => simp
    | cons d q =>
      cases n with
      | mk nx e =>
        rw [List.cons_prefix_cons] at hq
        obtain ⟨rfl, hq⟩ := hq
        rw [Node.longest_prefix_loop_cons]
        simp only [Node.navigate_to] at hnav
        cases hf : nx.find d with
        | none => simp [hf] at hnav
        | some v =>
          simp only [hf] at hnav
          simpa [List.cons_prefix_cons] using ih v q hq hnav

theorem Node.longest_prefix_loop_of_path (n : Node) (p : Str)
    (h : (n.navigate_to p).isSome = true) : n.longest_prefix_loop [] p = p :=
  (Node.longest_prefix_loop_prefix p n).eq_of_length_le
    (Node.longest_prefix_loop_longest p n p (List.prefix_refl p) h).length_le

theorem Node.navigate_of_accepts (n : Node) (w : Str) (h : n.accepts w = true) :
    (n.navigate_to w).isSome = true := by
  unfold Node.accepts at h
  cases hn : n.navigate_to w with
  | none => simp [hn] at h
  | some m => rfl

theorem Node.navigate_prefix (n : Node) (p w : Str) (hp : p <+: w)
    (h : (n.navigate_to w).isSome = true) : (n.navigate_to p).isSome = true := by
  obtain ⟨q, rfl⟩ := hp
  rw [Node.navigate_append] at h
  cases hn : n.navigate_to p with
  | none => simp [hn] at h
  | some m => rfl

/-- C3: `longest_prefix s` is the longest prefix of `s` that labels a path from
the root: it is a prefix of `s`, its path exists, it is all of `s` or the node
it reaches has no child for the next character of `s`, and no prefix of `s`
with a path is longer. It is empty for the empty string and when the root has
no child for the first character, as for `"cat"` after only `store("dog")`. -/
theorem longest_prefix_is_longest_path (t : Trie) (s : Str) :
    ( t.longest_prefix s) <+: s ∧
    (∃ m, t.navigate_to ( t.longest_prefix s) = some m ∧
      (( t.longest_prefix s) = s ∨
        ∃ c rest, s = ( t.longest_prefix s) ++ c :: rest ∧ m.next.find c = none)) ∧
    (∀ q : Str, q <+: s → (t.navigate_to q).isSome = true →
      q.length ≤ ( t.longest_prefix s).length) ∧
    ( t.longest_prefix []) = [] ∧
    (∀ (c : Char) (rest : Str), t.root.next.find c = none →
      ( t.longest_prefix (c :: rest)) = []) ∧
    ( Trie.longest_prefix (Trie.build ["dog".toList]) "cat".toList) = [] := by
  refine ⟨Node.longest_prefix_loop_prefix s t.root, Node.longest_prefix_loop_path s t.root,
    ?_, Node.longest_prefix_loop_nil t.root, ?_, by decide⟩
  · intro q hq hnav
    exact (Node.longest_prefix_loop_longest s t.root q hq hnav).length_le
  · intro c rest hc
    cases t with
    | mk root =>
      cases root with
      | mk nx e =>
        simp only [Node.next] at hc
        simp [Trie.longest_prefix, Node.longest_prefix_loop_cons, hc]

/-- C4: `longest_prefix` does not look at the `end` flags: after any sequence
of `store` calls on a fresh trie, it returns `p` unchanged for every prefix `p`
of a stored string, stored itself or not. -/
theorem longest_prefix_of_stored_prefix (strs : List Str) (w p : Str)
    (hw : w ∈ strs) (hp : p <+: w) : ( Trie.longest_prefix (Trie.build strs) p) = p := by
  apply Node.longest_prefix_loop_of_path
  apply Node.navigate_prefix _ p w hp
  exact Node.navigate_of_accepts _ w ((Trie.accepts_build strs w).mpr hw)

theorem longest_prefix_of_stored_prefix_witness :
    "cat".toList ∈ ["cat".toList, "car".toList] ∧ "ca".toList <+: "cat".toList ∧
    ( Trie.longest_prefix (Trie.build ["cat".toList, "car".toList]) "ca".toList)
      = "ca".toList :=
  ⟨by decide, by decide,
    longest_prefix_of_stored_prefix ["cat".toList, "car".toList] "cat".toList "ca".toList
      (by decide) (by decide)⟩

/-- C8: `longest_prefix s` is a prefix of `s`, so it is at most as long. -/
theorem longest_prefix_bounded (t : Trie) (s : Str) :
    ( t.longest_prefix s) <+: s ∧ ( t.longest_prefix s).length ≤ s.length :=
  ⟨Node.longest_prefix_loop_prefix s t.root,
    (Node.longest_prefix_loop_prefix s t.root).length_le⟩

/-! ## Storing twice -/

theorem Node.store_store (s : Str) : ∀ n : Node, (n.store s).store s = n.store s := by
  induction s with
  | nil => intro n; cases n; simp [Node.store]
  | cons c s ih =>
    intro n
    cases n with
    | mk nx e => simp [Node.store, NodeMap.find_put, NodeMap.put_put, ih]

theorem Node.store_of_accepts (s : Str) :
    ∀ n : Node, n.wf = true → n.accepts s = true → n.store s = n := by
  induction s with
  | nil =>
    intro n _ ha
    cases n with
    | mk nx e =>
      simp only [Node.accepts_nil, Node.isEnd] at ha
      simp [Node.store, ha]
  | cons c s ih =>
    intro n h ha
    cases n with
    | mk nx e =>
      simp only [Node.wf] at h
      rw [Node.accepts_cons] at ha
      cases hf : nx.find c with
      | none => simp [hf] at ha
      | some v =>
        simp only [hf] at ha
        simp [Node.store, hf, ih v (NodeMap.wf_find nx c v h hf) ha,
          NodeMap.put_self nx c v h hf]

/-- C6: `store` is idempotent. Storing `s` a second time gives the same trie
as storing it once, so every `words_starting_with` and `longest_prefix` query
answers the same; and on a trie with well-formed maps that already lists `s`
among its words, `store s` changes nothing. -/
theorem store_idempotent (t : Trie) (s : Str) :
    (t.store s).store s = t.store s ∧
    (∀ x : Str, ((t.store s).store s).words_starting_with x
        = (t.store s).words_starting_with x ∧
      ( Trie.longest_prefix ((t.store s).store s) x) = ( Trie.longest_prefix (t.store s) x)) ∧
    (t.wf = true → s ∈ t.words_starting_with [] → t.store s = t) := by
  have h1 : (t.store s).store s = t.store s := by
    simp [Trie.store, Node.store_store]
  refine ⟨h1, fun x => by rw [h1]; exact ⟨rfl, rfl⟩, ?_⟩
  intro h hs
  have ha := ((Trie.mem_words_iff t h [] s).mp hs).2
  cases t with
  | mk root => simp [Trie.store, Node.store_of_accepts s root h ha]

theorem store_idempotent_witness :
    (Trie.build ["car".toList, "cards".toList]).wf = true ∧
    "car".toList ∈ (Trie.build ["car".toList, "cards".toList]).words_starting_with [] ∧
    (Trie.build ["car".toList, "cards".toList]).store "car".toList
      = Trie.build ["car".toList, "cards".toList] :=
  ⟨by decide, by decide,
    (store_idempotent (Trie.build ["car".toList, "cards".toList]) "car".toList).2.2
      (by decide) (by decide)⟩

/-! ## Paths after `store` -/

theorem Node.navigate_fresh (p : Str) (h : (Node.fresh.navigate_to p).isSome = true) :
    p = [] := by
  cases p with
  | nil => rfl
  | cons c p => simp [Node.fresh, Node.navigate_to, NodeMap.find] at h

theorem Node.navigate_store (s : Str) :
    ∀ (n : Node) (p : Str), ((n.store s).navigate_to p).isSome = true ↔
      (n.navigate_to p).isSome = true ∨ p <+: s := by
  induction s with
  | nil =>
    intro n p
    cases n with
    | mk nx e =>
      cases p with
      | nil => simp [Node.store, Node.navigate_to]
      | cons d p => simp [Node.store, Node.navigate_to]
  | cons c s ih =>
    intro n p
    cases n with
    | mk nx e =>
      cases p with
      | nil => simp [Node.store, Node.navigate_to]
      | cons d p =>
        simp only [Node.store, Node.navigate_to, NodeMap.find_put, List.cons_prefix_cons]
        by_cases hd : d = c
        · subst hd
          simp only [if_true, ih, true_and]
          cases hf : nx.find d with
          | none =>
            simp only [Option.getD_none, Option.isSome_none, Bool.false_eq_true, false_or,
              or_iff_right_iff_imp]
            intro hp
            simp [Node.navigate_fresh p hp]
          | some v => simp
        · simp [hd]

theorem Trie.navigate_foldl (strs : List Str) (p : Str) :
    ∀ t : Trie, ((strs.foldl Trie.store t).navigate_to p).isSome = true ↔
      (t.navigate_to p).isSome = true ∨ ∃ w ∈ strs, p <+: w := by
  induction strs with
  | nil => intro t; simp
  | cons s strs ih =>
    intro t
    rw [List.foldl_cons, ih]
    simp only [Trie.navigate_to, Trie.store, Node.navigate_store, List.mem_cons,
      exists_eq_or_imp]
    tauto

theorem Trie.navigate_build (strs : List Str) (p : Str) :
    ((Trie.build strs).navigate_to p).isSome = true ↔ p = [] ∨ ∃ w ∈ strs, p <+: w := by
  rw [Trie.build, Trie.navigate_foldl]
  constructor
  · rintro (h | h)
    · exact Or.inl (Node.navigate_fresh p h)
    · exact Or.inr h
  · rintro (rfl | h)
    · exact Or.inl (by simp [Trie.navigate_to, Trie.new, Node.navigate_to])
    · exact Or.inr h

/-- C9: after any sequence of `store` calls on a fresh trie, when no stored
string starts with `p` the call `words_starting_with p` returns the empty
sequence: for a non-empty `p` the navigation returns `nullptr`, which
`list_all_children` answers with the empty list. -/
theorem words_starting_with_absent (strs : List Str) (p : Str)
    (h : ∀ w ∈ strs, ¬ p <+: w) :
    (Trie.build strs).words_starting_with p = [] ∧
    (p ≠ [] → (Trie.build strs).navigate_to p = none) ∧
    list_all_children none = [] := by
  refine ⟨?_, ?_, rfl⟩
  · rw [List.eq_nil_iff_forall_not_mem]
    intro w hw
    rw [Trie.mem_words_iff _ (Trie.wf_build strs), Trie.accepts_build] at hw
    exact h w hw.2 hw.1
  · intro hp
    cases hn : (Trie.build strs).navigate_to p with
    | none => rfl
    | some m =>
      have := (Trie.navigate_build strs p).mp (by simp [hn])
      rcases this with h0 | ⟨w, hw, hpw⟩
      · exact absurd h0 hp
      · exact absurd hpw (h w hw)

theorem words_starting_with_absent_witness :
    (∀ w ∈ ["dog".toList], ¬ "cat".toList <+: w) ∧
    (Trie.build ["dog".toList]).words_starting_with "cat".toList = [] ∧
    ("cat".toList ≠ [] → (Trie.build ["dog".toList]).navigate_to "cat".toList = none) ∧
    list_all_children none = [] :=
  ⟨by decide, words_starting_with_absent ["dog".toList] "cat".toList (by decide)⟩

/-! ## The queries leave the trie as it was -/

theorem NodeMap.subscript_of_find (m : NodeMap) (c : Char) (v : Node)
    (h : m.find c = some v) : m.subscript c = some (m, v) := by
  simp [NodeMap.subscript, h]

theorem Node.longest_prefix_run_eq (st : Str) :
    ∀ (n : Node) (out : Str), n.wf = true →
      n.longest_prefix_run out st = some (n.longest_prefix_loop out st, n) := by
  induction st with
  | nil => intro n out _; cases n; simp [Node.longest_prefix_run, Node.longest_prefix_loop]
  | cons c st ih =>
    intro n out h
    cases n with
    | mk nx e =>
      simp only [Node.wf] at h
      simp only [Node.longest_prefix_run, Node.longest_prefix_loop]
      cases hf : nx.find c with
      | none => rfl
      | some v =>
        simp [NodeMap.subscript_of_find nx c v hf, ih v (out ++ [c]) (NodeMap.wf_find nx c v h hf),
          NodeMap.put_self nx c v h hf]

theorem Node.navigate_to_run_eq (st : Str) :
    ∀ n : Node, n.wf = true → n.navigate_to_run st = some (n.navigate_to st, n) := by
  induction st with
  | nil => intro n _; cases n; simp [Node.navigate_to_run, Node.navigate_to]
  | cons c st ih =>
    intro n h
    cases n with
    | mk nx e =>
      simp only [Node.wf] at h
      simp only [Node.navigate_to_run, Node.navigate_to]
      cases hf : nx.find c with
      | none => rfl
      | some v =>
        simp [NodeMap.subscript_of_find nx c v hf, ih v (NodeMap.wf_find nx c v h hf),
          NodeMap.put_self nx c v h hf]

mutual
theorem Node.list_all_children_run_eq (n : Node) :
    n.list_all_children_run = (n.list_all_children, n) := by
  match n with
  | Node.mk nx e =>
    simp [Node.list_all_children_run, Node.list_all_children,
      NodeMap.entries_run_eq nx]
theorem NodeMap.entries_run_eq (m : NodeMap) :
    m.list_all_children_run = (m.list_all_children, m) := by
  match m with
  | NodeMap.nil => simp [NodeMap.list_all_children_run, NodeMap.list_all_children]
  | NodeMap.cons k v rest =>
    simp [NodeMap.list_all_children_run, NodeMap.list_all_children,
      Node.list_all_children_run_eq v, NodeMap.entries_run_eq rest]
end

theorem Node.assign_at_self (p : Str) :
    ∀ n m : Node, n.wf = true → n.navigate_to p = some m → n.assign_at p m = n := by
  induction p with
  | nil =>
    intro n m _ hn
    cases n with
    | mk nx e =>
      simp [Node.navigate_to] at hn
      simp [Node.assign_at, hn]
  | cons c p ih =>
    intro n m h hn
    cases n with
    | mk nx e =>
      simp only [Node.wf] at h
      simp only [Node.navigate_to] at hn
      cases hf : nx.find c with
      | none => simp [hf] at hn
      | some v =>
        simp only [hf] at hn
        simp [Node.assign_at, hf, ih v m (NodeMap.wf_find nx c v h hf) hn,
          NodeMap.put_self nx c v h hf]

/-- C10: the queries have no side effect. Run as state transformers on a trie
with well-formed maps, `longest_prefix x` and `words_starting_with x` (and the
helpers `navigate_to` and `list_all_children`) return their result together
with the very trie they started from, and no `next[chr]` inserts an entry. -/
theorem queries_leave_trie_unchanged (t : Trie) (h : t.wf = true) (x : Str) :
    t.longest_prefix_run x = some ( t.longest_prefix x, t) ∧
    t.words_starting_with_run x = some (t.words_starting_with x, t) ∧
    t.root.navigate_to_run x = some (t.navigate_to x, t.root) ∧
    (∀ n : Node, n.list_all_children_run = (n.list_all_children, n)) := by
  refine ⟨?_, ?_, Node.navigate_to_run_eq x t.root h, Node.list_all_children_run_eq⟩
  · simp [Trie.longest_prefix_run, Trie.longest_prefix, Node.longest_prefix_run_eq x t.root [] h]
  · simp only [Trie.words_starting_with_run, Trie.words_starting_with, Trie.navigate_to,
      Node.navigate_to_run_eq x t.root h]
    cases hn : t.root.navigate_to x with
    | none => simp [list_all_children]
    | some m =>
      simp [list_all_children, Node.list_all_children_run_eq,
        Node.assign_at_self x t.root m h hn]

theorem queries_leave_trie_unchanged_witness :
    (Trie.build ["car".toList, "cards".toList]).wf = true ∧
    (Trie.build ["car".toList, "cards".toList]).longest_prefix_run "cart".toList
      = some ( Trie.longest_prefix (Trie.build ["car".toList, "cards".toList]) "cart".toList,
          Trie.build ["car".toList, "cards".toList]) ∧
    (Trie.build ["car".toList, "cards".toList]).words_starting_with_run "cart".toList
      = some ((Trie.build ["car".toList, "cards".toList]).words_starting_with "cart".toList,
          Trie.build ["car".toList, "cards".toList]) :=
  ⟨by decide,
    (queries_leave_trie_unchanged (Trie.build ["car".toList, "cards".toList]) (by decide)
      "cart".toList).1,
    (queries_leave_trie_unchanged (Trie.build ["car".toList, "cards".toList]) (by decide)
      "cart".toList).2.1⟩

/-! ## The fresh trie and the empty string -/

theorem Node.list_fresh : Node.fresh.list_all_children = [] := by
  simp [Node.fresh, Node.list_all_children, NodeMap.list_all_children]

theorem Node.longest_prefix_loop_fresh (x : Str) : Node.fresh.longest_prefix_loop [] x = [] := by
  cases x with
  | nil => rfl
  | cons c x => simp [Node.fresh, Node.longest_prefix_loop, NodeMap.find]

/-- C11: a freshly constructed trie has a root with `end = false` and an empty
map, and on it every `words_starting_with x` is the empty sequence and every
`longest_prefix x` the empty string, the empty `x` included. -/
theorem fresh_trie_is_empty :
    Trie.new.root.isEnd = false ∧ Trie.new.root.next = NodeMap.nil ∧
    (∀ x : Str, Trie.new.words_starting_with x = [] ∧ ( Trie.longest_prefix Trie.new x) = []) ∧
    Trie.new.words_starting_with [] = [] ∧ ( Trie.longest_prefix Trie.new []) = [] := by
  refine ⟨rfl, rfl, ?_, rfl, rfl⟩
  intro x
  refine ⟨?_, Node.longest_prefix_loop_fresh x⟩
  cases x with
  | nil => rfl
  | cons c x =>
    simp [Trie.words_starting_with, Trie.navigate_to, Trie.new, Node.fresh, Node.navigate_to,
      NodeMap.find, list_all_children]

theorem Node.isEnd_store (s : Str) :
    ∀ n : Node, (n.store s).isEnd = true ↔ s = [] ∨ n.isEnd = true := by
  intro n
  have h := Node.accepts_store s n []
  rw [Node.accepts_nil, Node.accepts_nil] at h
  rw [h]
  constructor
  · rintro (h1 | h1)
    · exact Or.inl h1.symm
    · exact Or.inr h1
  · rintro (h1 | h1)
    · exact Or.inl h1.symm
    · exact Or.inr h1

theorem Trie.isEnd_foldl (strs : List Str) :
    ∀ t : Trie, (strs.foldl Trie.store t).root.isEnd = true ↔
      [] ∈ strs ∨ t.root.isEnd = true := by
  intro t
  have := Trie.accepts_foldl strs [] t
  simpa [Node.accepts_nil] using this

/-- C12: `store ""` leaves the root's map as it is, creates no node and only
sets the root's `end` flag; afterwards `words_starting_with ""` contains the
empty string. In a trie built by `store` calls the root has `end = true`
exactly when the empty string was stored. -/
theorem store_empty_marks_root (t : Trie) :
    (t.store []).root = Node.mk t.root.next true ∧
    (t.store []).root.count = t.root.count ∧
    [] ∈ (t.store []).words_starting_with [] ∧
    (∀ strs : List Str, (Trie.build strs).root.isEnd = true ↔ [] ∈ strs) := by
  refine ⟨?_, ?_, ?_, ?_⟩
  · cases t with
    | mk root => cases root; rfl
  · cases t with
    | mk root => cases root; rfl
  · cases t with
    | mk root =>
      cases root
      simp [Trie.store, Node.store, Trie.words_starting_with, Trie.navigate_to,
        Node.navigate_to, list_all_children, Node.list_all_children]
  · intro strs
    simpa [Trie.new, Node.fresh, Node.isEnd] using Trie.isEnd_foldl strs Trie.new

/-! ## `store` only grows the tree -/

theorem Node.navigate_store_grows (s : Str) :
    ∀ (n : Node) (p : Str) (m : Node), n.navigate_to p = some m →
      ∃ m2, (n.store s).navigate_to p = some m2 ∧ (m.isEnd = true → m2.isEnd = true) := by
  induction s with
  | nil =>
    intro n p m hn
    cases n with
    | mk nx e =>
      cases p with
      | nil =>
        exact ⟨Node.mk nx true, by simp [Node.store, Node.navigate_to], fun _ => rfl⟩
      | cons d p =>
        exact ⟨m, by simpa [Node.store, Node.navigate_to] using hn, fun h => h⟩
  | cons c s ih =>
    intro n p m hn
    cases n with
    | mk nx e =>
      cases p with
      | nil =>
        simp only [Node.navigate_to, Option.some.injEq] at hn
        subst hn
        exact ⟨Node.mk (nx.put c (((nx.find c).getD Node.fresh).store s)) e,
          by simp [Node.store, Node.navigate_to], fun h => by simpa [Node.isEnd] using h⟩
      | cons d p =>
        simp only [Node.navigate_to] at hn
        cases hf : nx.find d with
        | none => simp [hf] at hn
        | some v =>
          simp only [hf] at hn
          by_cases hd : d = c
          · subst hd
            obtain ⟨m2, hm2, he⟩ := ih v p m hn
            exact ⟨m2, by simp [Node.store, Node.navigate_to, NodeMap.find_put, hf, hm2], he⟩
          · exact ⟨m, by simp [Node.store, Node.navigate_to, NodeMap.find_put, hd, hf, hn],
              fun h => h⟩

theorem Node.find_store (s : Str) (n : Node) (c : Char) (v : Node)
    (h : n.next.find c = some v) :
    (n.store s).next.find c = some
      (match s with
        | [] => v
        | d :: rest => if d = c then v.store rest else v) := by
  cases n with
  | mk nx e =>
    simp only [Node.next] at h
    cases s with
    | nil => simpa [Node.store, Node.next] using h
    | cons d rest =>
      simp only [Node.store, Node.next, NodeMap.find_put]
      by_cases hd : d = c
      · subst hd
        simp [h]
      · have hd2 : ¬ c = d := fun e => hd e.symm
        simp [hd, hd2, h]

/-- C13: `store` only grows the tree. Every path that led to a node before
`store s` still leads to a node afterwards, and that node has `end = true` if
the node had it before; at every node, every entry of the map is still there
and holds the child it held, in which the rest of `s` was stored when the walk
went through it. -/
theorem store_only_grows (t : Trie) (s : Str) :
    (∀ (p : Str) (m : Node), t.navigate_to p = some m →
      ∃ m2, (t.store s).navigate_to p = some m2 ∧ (m.isEnd = true → m2.isEnd = true)) ∧
    (t.root.isEnd = true → (t.store s).root.isEnd = true) ∧
    (∀ (n : Node) (c : Char) (v : Node), n.next.find c = some v →
      (n.store s).next.find c = some
        (match s with
          | [] => v
          | d :: rest => if d = c then v.store rest else v)) := by
  refine ⟨fun p m h => Node.navigate_store_grows s t.root p m h, ?_,
    fun n c v h => Node.find_store s n c v h⟩
  intro h
  exact (Node.isEnd_store s t.root).mpr (Or.inr h)

theorem store_only_grows_witness :
    (Trie.build ["car".toList]).navigate_to "car".toList
      = some (Node.mk NodeMap.nil true) ∧
    ∃ m2, ((Trie.build ["car".toList]).store "cards".toList).navigate_to "car".toList
        = some m2 ∧
      ((Node.mk NodeMap.nil true).isEnd = true → m2.isEnd = true) :=
  ⟨rfl,
    (store_only_grows (Trie.build ["car".toList]) "cards".toList).1 "car".toList
      (Node.mk NodeMap.nil true) rfl⟩

/-- C14: after `store("ab")`, `store("abc")`, `store("abd")` on a fresh trie,
`words_starting_with("ab")` is `"ab"`, `"abc"`, `"abd"`, each once,
`words_starting_with("abc")` is `"abc"` alone, and `longest_prefix("abz")` is
`"ab"`. -/
theorem scenario_ab_abc_abd :
    (Trie.build ["ab".toList, "abc".toList, "abd".toList]).words_starting_with "ab".toList
      = ["ab".toList, "abc".toList, "abd".toList] ∧
    (Trie.build ["ab".toList, "abc".toList, "abd".toList]).words_starting_with "abc".toList
      = ["abc".toList] ∧
    ( Trie.longest_prefix (Trie.build ["ab".toList, "abc".toList, "abd".toList]) "abz".toList)
      = "ab".toList := by
  refine ⟨by decide, by decide, by decide⟩

/-! ## Counting the nodes that `store` creates -/

theorem NodeMap.count_put_absent (m : NodeMap) (c : Char) (x : Node)
    (h : m.find c = none) : (m.put c x).count = m.count + x.count := by
  match m with
  | NodeMap.nil => simp [NodeMap.put, NodeMap.count]
  | NodeMap.cons k v rest =>
    by_cases hc : c = k
    · simp [NodeMap.find, hc] at h
    · simp only [NodeMap.find, hc, if_false] at h
      have ih := NodeMap.count_put_absent rest c x h
      by_cases h1 : char_value c < char_value k
      · simp [NodeMap.put, h1, NodeMap.count]
        omega
      · simp [NodeMap.put, h1, hc, NodeMap.count, ih]
        omega

theorem NodeMap.count_put_found (m : NodeMap) (c : Char) (x v : Node) (hw : m.wf = true)
    (h : m.find c = some v) : (m.put c x).count + v.count = m.count + x.count := by
  match m with
  | NodeMap.nil => simp [NodeMap.find] at h
  | NodeMap.cons k v2 rest =>
    simp only [NodeMap.wf, Bool.and_eq_true] at hw
    by_cases hc : c = k
    · subst hc
      simp only [NodeMap.find, if_true, Option.some.injEq] at h
      subst h
      simp [NodeMap.put, NodeMap.count]
      omega
    · simp only [NodeMap.find, hc, if_false] at h
      have ih := NodeMap.count_put_found rest c x v hw.2 h
      have h1 : ¬ char_value c < char_value k := by
        intro hlt
        have := NodeMap.find_of_above rest k c hw.1.2 (lt_asymm hlt)
        simp [this] at h
      simp [NodeMap.put, h1, hc, NodeMap.count]
      omega

theorem Node.count_store (s : Str) :
    ∀ n : Node, n.wf = true →
      (n.store s).count = n.count + (s.length - (n.longest_prefix_loop [] s).length) := by
  induction s with
  | nil =>
    intro n _
    cases n with
    | mk nx e => simp [Node.store, Node.count]
  | cons c s ih =>
    intro n h
    cases n with
    | mk nx e =>
      simp only [Node.wf] at h
      rw [Node.longest_prefix_loop_cons]
      simp only [Node.store, Node.count]
      cases hf : nx.find c with
      | none =>
        have h1 := NodeMap.count_put_absent nx c (Node.fresh.store s) hf
        have h2 := ih Node.fresh Node.wf_fresh
        rw [Node.longest_prefix_loop_fresh] at h2
        have h3 : Node.fresh.count = 1 := rfl
        simp only [Option.getD_none, h1, h2, h3, List.length_cons, List.length_nil]
        omega
      | some v =>
        have hv := NodeMap.wf_find nx c v h hf
        have h1 := NodeMap.count_put_found nx c (v.store s) v h hf
        have h2 := ih v hv
        have h3 := (Node.longest_prefix_loop_prefix s v).length_le
        simp only [Option.getD_some, List.length_cons]
        omega

/-- C15: on a trie with well-formed maps, `store s` creates exactly
`|s| - |longest_prefix s|` nodes, the prefix being taken before the store.
Where the walk finds no child it links a `new Node()`, with `end = false` and
an empty map, and goes on inside it; where it finds a child it goes on inside
that very child. -/
theorem store_creates_nodes (t : Trie) (h : t.wf = true) (s : Str) :
    (t.store s).root.count = t.root.count + (s.length - ( t.longest_prefix s).length) ∧
    Node.fresh = Node.mk NodeMap.nil false ∧
    (∀ (n : Node) (c : Char) (rest : Str), n.next.find c = none →
      (n.store (c :: rest)).next.find c = some (Node.fresh.store rest)) ∧
    (∀ (n : Node) (c : Char) (rest : Str) (v : Node), n.next.find c = some v →
      (n.store (c :: rest)).next.find c = some (v.store rest)) := by
  refine ⟨Node.count_store s t.root h, rfl, ?_, ?_⟩
  · intro n c rest hf
    cases n with
    | mk nx e =>
      simp only [Node.next] at hf
      simp [Node.store, Node.next, NodeMap.find_put, hf]
  · intro n c rest v hf
    cases n with
    | mk nx e =>
      simp only [Node.next] at hf
      simp [Node.store, Node.next, NodeMap.find_put, hf]

theorem store_creates_nodes_witness :
    (Trie.build ["car".toList]).wf = true ∧
    ((Trie.build ["car".toList]).store "cards".toList).root.count
      = (Trie.build ["car".toList]).root.count +
        ("cards".toList.length
          - ( Trie.longest_prefix (Trie.build ["car".toList]) "cards".toList).length) :=
  ⟨by decide, (store_creates_nodes (Trie.build ["car".toList]) (by decide) "cards".toList).1⟩

/-! ## The order of the enumeration -/

theorem NodeMap.mem_list_head (m : NodeMap) (w : Str) (h : w ∈ m.list_all_children) :
    ∃ c w2, w = c :: w2 ∧ (m.find c).isSome = true := by
  match m with
  | NodeMap.nil => simp [NodeMap.list_all_children] at h
  | NodeMap.cons k v rest =>
    simp only [NodeMap.list_all_children, List.mem_append, List.mem_map] at h
    rcases h with ⟨w2, _, rfl⟩ | h
    · exact ⟨k, w2, rfl, by simp [NodeMap.find]⟩
    · obtain ⟨c, w2, rfl, hc⟩ := NodeMap.mem_list_head rest w h
      refine ⟨c, w2, rfl, ?_⟩
      by_cases hck : c = k
      · simp [NodeMap.find, hck]
      · simpa [NodeMap.find, hck] using hc

theorem NodeMap.above_of_find (m : NodeMap) (lo c : Char) (h : m.above lo = true)
    (hc : (m.find c).isSome = true) : char_value lo < char_value c := by
  by_contra hlt
  rw [NodeMap.find_of_above m lo c h hlt] at hc
  simp at hc

mutual
theorem Node.list_sorted (n : Node) (h : n.wf = true) :
    n.list_all_children.Pairwise (List.Lex (fun a b : Char => char_value a < char_value b)) := by
  match n with
  | Node.mk nx e =>
    simp only [Node.wf] at h
    have ih := NodeMap.entries_sorted nx h
    simp only [Node.list_all_children]
    rw [List.pairwise_append]
    refine ⟨by cases e <;> simp, ih, ?_⟩
    intro a ha b hb
    obtain ⟨c, w2, rfl, _⟩ := NodeMap.mem_list_head nx b hb
    cases e with
    | false => simp at ha
    | true =>
      simp only [if_true, List.mem_singleton] at ha
      subst ha
      exact List.Lex.nil
theorem NodeMap.entries_sorted (m : NodeMap) (h : m.wf = true) :
    m.list_all_children.Pairwise (List.Lex (fun a b : Char => char_value a < char_value b)) := by
  match m with
  | NodeMap.nil => simp [NodeMap.list_all_children]
  | NodeMap.cons k v rest =>
    simp only [NodeMap.wf, Bool.and_eq_true] at h
    have ihv := Node.list_sorted v h.1.1
    have ihr := NodeMap.entries_sorted rest h.2
    simp only [NodeMap.list_all_children]
    rw [List.pairwise_append, List.pairwise_map]
    refine ⟨ihv.imp (fun hab => List.Lex.cons hab), ihr, ?_⟩
    intro a ha b hb
    obtain ⟨a2, _, rfl⟩ := List.mem_map.mp ha
    obtain ⟨c, w2, rfl, hc⟩ := NodeMap.mem_list_head rest b hb
    exact List.Lex.rel (NodeMap.above_of_find rest k c h.1.2 hc)
end

theorem Trie.words_sorted (t : Trie) (h : t.wf = true) (p : Str) :
    (t.words_starting_with p).Pairwise (List.Lex (fun a b : Char => char_value a < char_value b)) := by
  simp only [Trie.words_starting_with, Trie.navigate_to]
  rw [List.pairwise_map]
  cases hn : t.root.navigate_to p with
  | none => simp [list_all_children]
  | some m =>
    simp only [list_all_children]
    exact (Node.list_sorted m (Node.wf_navigate p t.root m h hn)).imp
      (fun hab => List.Lex.append_left _ hab p)

theorem Str.lex_irrefl (a : Str) : ¬ List.Lex (fun a b : Char => char_value a < char_value b) a a := by
  induction a with
  | nil => intro h; cases h
  | cons c a ih =>
    intro h
    cases h with
    | cons h2 => exact ih h2
    | rel h2 => exact lt_irrefl (char_value c) h2

theorem Trie.words_nodup (t : Trie) (h : t.wf = true) (p : Str) :
    (t.words_starting_with p).Nodup := by
  unfold List.Nodup
  refine (Trie.words_sorted t h p).imp ?_
  intro a b hab heq
  subst heq
  exact Str.lex_irrefl a hab

/-- C16: on a trie with well-formed maps no string occurs twice in
`words_starting_with p`; so after any sequence of `store` calls on a fresh
trie its length is the number of distinct stored strings that start with `p`,
however often each was stored. -/
theorem words_starting_with_distinct :
    (∀ (t : Trie), t.wf = true → ∀ p : Str, (t.words_starting_with p).Nodup) ∧
    (∀ (strs : List Str) (p : Str),
      ((Trie.build strs).words_starting_with p).length
        = ((strs.filter (fun w => decide (p <+: w))).dedup).length) := by
  refine ⟨fun t h p => Trie.words_nodup t h p, ?_⟩
  intro strs p
  apply List.Perm.length_eq
  rw [List.perm_ext_iff_of_nodup (Trie.words_nodup _ (Trie.wf_build strs) p)
    (List.nodup_dedup _)]
  intro w
  rw [Trie.mem_words_iff _ (Trie.wf_build strs), Trie.accepts_build, List.mem_dedup,
    List.mem_filter]
  simp [and_comm]

theorem words_starting_with_distinct_witness :
    (Trie.build ["car".toList, "car".toList, "cards".toList]).wf = true ∧
    ((Trie.build ["car".toList, "car".toList, "cards".toList]).words_starting_with
      "ca".toList).Nodup ∧
    ((Trie.build ["car".toList, "car".toList, "cards".toList]).words_starting_with
      "ca".toList).length = 2 :=
  ⟨by decide,
    words_starting_with_distinct.1 (Trie.build ["car".toList, "car".toList, "cards".toList])
      (by decide) "ca".toList,
    by decide⟩

/-- C17: on a trie with well-formed maps, `words_starting_with p` is strictly
increasing in the lexicographic order of strings over the key order of the
maps, which is `std::less<char>`: the order of the `char` values. In that
order a string comes before each of its proper extensions. -/
theorem words_starting_with_sorted (t : Trie) (h : t.wf = true) (p : Str) :
    (t.words_starting_with p).Pairwise
      (List.Lex (fun a b : Char => char_value a < char_value b)) ∧
    (∀ a b : Str, a <+: b → a ≠ b →
      List.Lex (fun a b : Char => char_value a < char_value b) a b) := by
  refine ⟨Trie.words_sorted t h p, ?_⟩
  rintro a b ⟨q, rfl⟩ hne
  cases q with
  | nil => simp at hne
  | cons c q =>
    have := List.Lex.append_left (fun a b : Char => char_value a < char_value b)
      (List.Lex.nil : List.Lex (fun a b : Char => char_value a < char_value b) [] (c :: q)) a
    simpa using this

theorem words_starting_with_sorted_witness :
    (Trie.build ["ab".toList, [Char.ofNat 200, 'b'], "a".toList, [Char.ofNat 200]]).wf
      = true ∧
    ((Trie.build ["ab".toList, [Char.ofNat 200, 'b'], "a".toList,
        [Char.ofNat 200]]).words_starting_with []).Pairwise
      (List.Lex (fun a b : Char => char_value a < char_value b)) ∧
    (Trie.build ["ab".toList, [Char.ofNat 200, 'b'], "a".toList,
        [Char.ofNat 200]]).words_starting_with []
      = [[Char.ofNat 200], [Char.ofNat 200, 'b'], "a".toList, "ab".toList] :=
  ⟨by decide,
    (words_starting_with_sorted
      (Trie.build ["ab".toList, [Char.ofNat 200, 'b'], "a".toList, [Char.ofNat 200]])
      (by decide) []).1,
    by decide⟩

/-! ## The order of two `store` calls -/

theorem NodeMap.put_comm (m : NodeMap) (c d : Char) (x y : Node) (hcd : c ≠ d) :
    (m.put c x).put d y = (m.put d y).put c x := by
  have hdc : d ≠ c := fun e => hcd e.symm
  match m with
  | NodeMap.nil =>
    rcases char_trichotomy c d with h | h | h
    · simp [NodeMap.put, h, lt_asymm h, hcd, hdc]
    · exact absurd h hcd
    · simp [NodeMap.put, h, lt_asymm h, hcd, hdc]
  | NodeMap.cons k v rest =>
    have ih := NodeMap.put_comm rest c d x y hcd
    rcases char_trichotomy c k with h1 | h1 | h1
    · rcases char_trichotomy d k with h2 | h2 | h2
      · rcases char_trichotomy c d with h | h | h
        · simp [NodeMap.put, h1, h2, h, lt_asymm h, hcd, hdc]
        · exact absurd h hcd
        · simp [NodeMap.put, h1, h2, h, lt_asymm h, hcd, hdc]
      · subst h2
        simp [NodeMap.put, h1, lt_asymm h1, hcd, hdc]
      · have h3 : char_value c < char_value d := lt_trans h1 h2
        have h4 : d ≠ k := fun e => lt_irrefl _ (e ▸ h2)
        simp [NodeMap.put, h1, lt_asymm h2, lt_asymm h3, hdc, h4]
    · subst h1
      rcases char_trichotomy d c with h2 | h2 | h2
      · simp [NodeMap.put, h2, lt_asymm h2, hcd, hdc]
      · exact absurd h2 hdc
      · simp [NodeMap.put, lt_asymm h2, hcd, hdc]
    · have h5 : c ≠ k := fun e => lt_irrefl _ (e ▸ h1)
      rcases char_trichotomy d k with h2 | h2 | h2
      · have h3 : char_value d < char_value c := lt_trans h2 h1
        simp [NodeMap.put, h2, lt_asymm h1, lt_asymm h3, hcd, h5]
      · subst h2
        simp [NodeMap.put, lt_asymm h1, hcd, hdc]
      · have h4 : d ≠ k := fun e => lt_irrefl _ (e ▸ h2)
        simp [NodeMap.put, lt_asymm h1, lt_asymm h2, h4, h5, ih]

theorem Node.store_nil_comm (b : Str) (n : Node) :
    (n.store []).store b = (n.store b).store [] := by
  cases n with
  | mk nx e =>
    cases b with
    | nil => rfl
    | cons d b => rfl

theorem Node.store_comm (a : Str) :
    ∀ (n : Node) (b : Str), (n.store a).store b = (n.store b).store a := by
  induction a with
  | nil => intro n b; exact Node.store_nil_comm b n
  | cons c a ih =>
    intro n b
    cases b with
    | nil => exact (Node.store_nil_comm (c :: a) n).symm
    | cons d b =>
      cases n with
      | mk nx e =>
        by_cases hcd : c = d
        · subst hcd
          simp [Node.store, NodeMap.find_put, NodeMap.put_put, ih]
        · have hdc : ¬ d = c := fun e => hcd e.symm
          simp [Node.store, NodeMap.find_put, hcd, hdc,
            NodeMap.put_comm nx c d _ _ hcd]

/-- C18: two `store` calls commute: storing `a` then `b` gives the same tree,
node for node, as storing `b` then `a`, so no query depends on the order of
insertion. -/
theorem store_commutes (t : Trie) (a b : Str) :
    (t.store a).store b = (t.store b).store a ∧
    (∀ x : Str, ((t.store a).store b).words_starting_with x
        = ((t.store b).store a).words_starting_with x ∧
      ( Trie.longest_prefix ((t.store a).store b) x)
        = ( Trie.longest_prefix ((t.store b).store a) x)) := by
  have h1 : (t.store a).store b = (t.store b).store a := by
    simp [Trie.store, Node.store_comm a t.root b]
  exact ⟨h1, fun x => by rw [h1]; exact ⟨rfl, rfl⟩⟩

/-! ## Leaves of a built trie -/

theorem Node.longest_prefix_loop_eq_iff (n : Node) (p : Str) :
    n.longest_prefix_loop [] p = p ↔ (n.navigate_to p).isSome = true := by
  constructor
  · intro h
    obtain ⟨m, hm, _⟩ := Node.longest_prefix_loop_path p n
    rw [h] at hm
    simp [hm]
  · exact Node.longest_prefix_loop_of_path n p

theorem Trie.words_ne_nil_iff (strs : List Str) (p : Str) :
    (Trie.build strs).words_starting_with p ≠ [] ↔ ∃ w ∈ strs, p <+: w := by
  constructor
  · intro h
    obtain ⟨w, hw⟩ := List.exists_mem_of_ne_nil _ h
    rw [Trie.mem_words_iff _ (Trie.wf_build strs), Trie.accepts_build] at hw
    exact ⟨w, hw.2, hw.1⟩
  · rintro ⟨w, hw, hp⟩
    have : w ∈ (Trie.build strs).words_starting_with p := by
      rw [Trie.mem_words_iff _ (Trie.wf_build strs), Trie.accepts_build]
      exact ⟨hp, hw⟩
    exact List.ne_nil_of_mem this

theorem Trie.leaf_isEnd (strs : List Str) (p : Str) (m : Node) (hp : p ≠ [])
    (hn : (Trie.build strs).navigate_to p = some m) (hm : m.next = NodeMap.nil) :
    m.isEnd = true := by
  have hsome : ((Trie.build strs).navigate_to p).isSome = true := by simp [hn]
  rcases (Trie.navigate_build strs p).mp hsome with h0 | ⟨w, hw, ⟨q, rfl⟩⟩
  · exact absurd h0 hp
  · have hacc := (Trie.accepts_build strs (p ++ q)).mpr hw
    rw [Node.accepts_append] at hacc
    simp only [Trie.navigate_to] at hn
    simp only [hn] at hacc
    cases m with
    | mk nx e =>
      simp only [Node.next] at hm
      subst hm
      cases q with
      | nil => simpa [Node.accepts_nil] using hacc
      | cons c q => simp [Node.accepts_cons, NodeMap.find] at hacc

/-- C19: after any sequence of `store` calls on a fresh trie, every node other
than the root that has no children has `end = true`. Hence
`words_starting_with p` is non-empty exactly when `longest_prefix p = p`,
unless nothing was stored and `p` is empty: then `longest_prefix ""` is `""`
and `words_starting_with ""` is empty. -/
theorem leaves_are_terminal (strs : List Str) (p : Str) :
    (∀ m : Node, p ≠ [] → (Trie.build strs).navigate_to p = some m →
      m.next = NodeMap.nil → m.isEnd = true) ∧
    ((strs ≠ [] ∨ p ≠ []) →
      ((Trie.build strs).words_starting_with p ≠ [] ↔
        ( Trie.longest_prefix (Trie.build strs) p) = p)) ∧
    ((Trie.build []).words_starting_with [] = [] ∧
      ( Trie.longest_prefix (Trie.build []) []) = []) := by
  refine ⟨fun m hp hn hm => Trie.leaf_isEnd strs p m hp hn hm, ?_, rfl, rfl⟩
  intro hor
  rw [Trie.words_ne_nil_iff, Trie.longest_prefix, Node.longest_prefix_loop_eq_iff]
  have hb := Trie.navigate_build strs p
  simp only [Trie.navigate_to] at hb
  rw [hb]
  constructor
  · exact fun h => Or.inr h
  · rintro (rfl | h)
    · rcases hor with h1 | h1
      · cases strs with
        | nil => exact absurd rfl h1
        | cons w strs => exact ⟨w, by simp, List.nil_prefix⟩
      · exact absurd rfl h1
    · exact h

theorem leaves_are_terminal_witness :
    (["car".toList] ≠ [] ∨ "ca".toList ≠ []) ∧
    ((Trie.build ["car".toList]).words_starting_with "ca".toList ≠ [] ↔
      ( Trie.longest_prefix (Trie.build ["car".toList]) "ca".toList) = "ca".toList) ∧
    (Trie.build ["car".toList]).navigate_to "car".toList = some (Node.mk NodeMap.nil true) ∧
    (Node.mk NodeMap.nil true).isEnd = true :=
  ⟨by decide,
    (leaves_are_terminal ["car".toList] "ca".toList).2.1 (by decide),
    rfl,
    (leaves_are_terminal ["car".toList] "car".toList).1 (Node.mk NodeMap.nil true)
      (by decide) rfl rfl⟩

/-! ## The longest prefix after `store` -/

theorem lcp_nil_right (s : Str) : lcp s [] = [] := by
  cases s <;> rfl

theorem lcp_prefix_left (s : Str) : ∀ t : Str, lcp s t <+: s := by
  induction s with
  | nil => intro t; simp [lcp]
  | cons a s ih =>
    intro t
    cases t with
    | nil => simp [lcp]
    | cons b t =>
      by_cases hab : a = b
      · simpa [lcp, hab, List.cons_prefix_cons] using ih t
      · simp [lcp, hab]

theorem lcp_prefix_right (s : Str) : ∀ t : Str, lcp s t <+: t := by
  induction s with
  | nil => intro t; simp [lcp]
  | cons a s ih =>
    intro t
    cases t with
    | nil => simp [lcp]
    | cons b t =>
      by_cases hab : a = b
      · simpa [lcp, hab, List.cons_prefix_cons] using ih t
      · simp [lcp, hab]

theorem lcp_greatest (q : Str) : ∀ s t : Str, q <+: s → q <+: t → q <+: lcp s t := by
  induction q with
  | nil => intro s t _ _; simp
  | cons c q ih =>
    intro s t hs ht
    cases s with
    | nil => simp at hs
    | cons a s =>
      cases t with
      | nil => simp at ht
      | cons b t =>
        rw [List.cons_prefix_cons] at hs ht
        obtain ⟨rfl, hs⟩ := hs
        obtain ⟨rfl, ht⟩ := ht
        simpa [lcp, List.cons_prefix_cons] using ih s t hs ht

theorem Node.longest_prefix_loop_store (t : Str) :
    ∀ (n : Node) (s : Str),
      (n.store t).longest_prefix_loop [] s =
        if (lcp s t).length ≤ (n.longest_prefix_loop [] s).length
        then n.longest_prefix_loop [] s else lcp s t := by
  induction t with
  | nil =>
    intro n s
    cases n with
    | mk nx e =>
      cases s with
      | nil => simp [Node.store, Node.longest_prefix_loop_nil, lcp]
      | cons d s => simp [Node.store, Node.longest_prefix_loop_cons, lcp]
  | cons c t ih =>
    intro n s
    cases n with
    | mk nx e =>
      cases s with
      | nil => simp [Node.store, Node.longest_prefix_loop_nil, lcp]
      | cons d s =>
        simp only [Node.store, Node.longest_prefix_loop_cons, NodeMap.find_put]
        by_cases hd : d = c
        · subst hd
          simp only [if_true, ih, lcp]
          cases hf : nx.find d with
          | none =>
            simp only [Option.getD_none, Node.longest_prefix_loop_fresh, List.length_nil,
              Nat.le_zero_eq, List.length_eq_zero, List.length_cons]
            by_cases hl : lcp s t = []
            · simp [hl]
            · simp [hl]
          | some v =>
            simp only [Option.getD_some, List.length_cons, Nat.add_le_add_iff_right]
            split_ifs <;> rfl
        · simp [hd, lcp]

/-- C20: `longest_prefix s` after `store t` is the longer of `longest_prefix s`
before the store and the longest common prefix of `s` and `t`, where `lcp s t`
is a prefix of both that every common prefix is a prefix of; so `store` never
shortens the result of `longest_prefix`. -/
theorem longest_prefix_after_store (tr : Trie) (s t : Str) :
    ( Trie.longest_prefix (tr.store t) s) =
      (if (lcp s t).length ≤ ( tr.longest_prefix s).length
        then ( tr.longest_prefix s) else lcp s t) ∧
    ( tr.longest_prefix s).length ≤ ( Trie.longest_prefix (tr.store t) s).length ∧
    (lcp s t <+: s ∧ lcp s t <+: t ∧ ∀ q : Str, q <+: s → q <+: t → q <+: lcp s t) := by
  have h1 := Node.longest_prefix_loop_store t tr.root s
  refine ⟨h1, ?_, lcp_prefix_left s t, lcp_prefix_right s t,
    fun q hs ht => lcp_greatest q s t hs ht⟩
  simp only [Trie.longest_prefix, Trie.store, h1]
  split_ifs with h
  · exact le_refl _
  · exact le_of_lt (not_le.mp h)
